import Mathlib

/-!
Verification development for the weekly-calendar scheduling engine.

The TypeScript source is shallowly embedded as follows:

* Wall-clock timestamps (ISO strings manipulated through luxon) are modelled
  as integers counting minutes since an arbitrary local epoch midnight.
  A calendar date is the integer number of days since that epoch, so the
  midnight of date `d` is the timestamp `d * 1440`, the date of a timestamp
  `t` is `t.fdiv 1440` (`DateTime.toISODate`) and the minute-of-day is
  `t.emod 1440`.  The epoch day is chosen to be a Monday, matching luxon's
  Monday-based weeks, so 2024-01-01 (a Monday) can be represented by day 0.
  Daylight-saving shifts are outside the model, as in the spec, which treats
  timezone conversion as a trusted external collaborator.
* JavaScript arrays become `List`, in-place mutation of a found element
  becomes rebuilding the list (`replaceFirst` / `removeFirst` / `List.map`),
  and `Array.prototype.find` becomes `List.find?` (both return the first
  match).
* Fallible operations (`throw new Error('NOT_FOUND: …')`) return `Option` /
  an explicit failed `ApplyResult`.
* Fresh identifier generation (`nid`, which uses `Date.now`/`Math.random`)
  is modelled by a deterministic counter threaded through the executor
  state; no claim depends on the generated names.
* `String.length`/`charCodeAt` act on UTF-16 code units; the model uses the
  character's code point, which agrees on all BMP text.
-/

namespace WeeklyCal

/-! ## Data model (src/lib/data.ts) -/

inductive BlockStatus
  | planned
  | in_progress
  | done
  | skipped
deriving DecidableEq

inductive RecType
  | daily
  | weekly
deriving DecidableEq

/-- `BlockRecurrence` from src/lib/data.ts; `startDate`, `until` and the
`exceptions` entries are calendar dates (days since the epoch Monday). -/
structure BlockRecurrence where
  id : String
  type : RecType
  interval : Int
  daysOfWeek : Option (List Int)
  startDate : Int
  startMinute : Int
  duration : Int
  «until» : Option Int
  exceptions : Option (List Int)
deriving DecidableEq

/-- `Block` from src/lib/data.ts; `start` and `«end»` are timestamps in
minutes since the epoch midnight. -/
structure Block where
  block_id : String
  task_id : Option String
  title : Option String
  notes_override : Option String
  start : Int
  «end» : Int
  status : BlockStatus
  rev : Int
  recurrence : Option BlockRecurrence
deriving DecidableEq

structure ChecklistItem where
  id : String
  text : String
  done : Bool
deriving DecidableEq

/-- `Task` from src/lib/data.ts.  The task-level `recurrence` field is an
opaque annotation in the source (`any`); only the `rrule` string written by
`set_recurrence` is retained here. -/
structure Task where
  task_id : String
  title : String
  notes : Option String
  checklist : List ChecklistItem
  priority : Int
  tags : List String
  created_at : Int
  updated_at : Int
  recurrence : Option String
deriving DecidableEq

/-! ## Temporal utilities (src/lib/schedule.ts) -/

def SNAP_MIN : Int := 15

def MINUTES_PER_DAY : Int := 24 * 60

/-- `minutesSinceMidnight` applied to a timestamp in minutes. -/
def minutesSinceMidnight (t : Int) : Int := t.emod 1440

def durationMinutes (a b : Int) : Int := max 0 (b - a)

def snapMinutes (mins step : Int) : Int := max 0 ((mins / step) * step)

def clamp (v lo hi : Int) : Int := min hi (max lo v)

/-- `isoForDayAndMinutes(weekStartISO, dayIndex, minutes)`: midnight of the
`dayIndex`-th day of the week starting at `weekStart` plus the clamped
minute offset. -/
def isoForDayAndMinutes (weekStart dayIndex minutes : Int) : Int :=
  (weekStart + dayIndex) * 1440 + clamp minutes 0 MINUTES_PER_DAY

/-- `isoForDateAndMinutes(dateISO, minutes)` from the second copy of
schedule.ts: midnight of `date` plus the clamped minute offset. -/
def isoForDateAndMinutes (date minutes : Int) : Int :=
  date * 1440 + clamp minutes 0 MINUTES_PER_DAY

/-- `overlaps(aStart, aEnd, bStart, bEnd)`: half-open interval overlap. -/
def overlaps (aStart aEnd bStart bEnd : Int) : Bool :=
  decide (max aStart bStart < min aEnd bEnd)

/-! ## Recurrence rule evaluation (src/lib/commands.ts, shouldIncludeDate) -/

/-- luxon weekday (1 = Monday … 7 = Sunday); the epoch day 0 is a Monday. -/
def weekdayOf (day : Int) : Int := day.emod 7 + 1

/-- Monday-aligned week index of a day (`startOf('week')` collapses a day to
its week). -/
def weekOf (day : Int) : Int := day.fdiv 7

/-- `shouldIncludeDate(rec, date)` from src/lib/commands.ts.  Dates are day
numbers; the `until` comparison `date.startOf('day') > limit.endOf('day')`
is exactly `day > until` at day granularity. -/
def shouldIncludeDate (rec : BlockRecurrence) (day : Int) : Bool :=
  if (match rec.«until» with | some u => decide (day > u) | none => false) then false
  else if day < rec.startDate then false
  else if decide (day ∈ rec.exceptions.getD []) then false
  else match rec.type with
    | .daily =>
      let diff := day - rec.startDate
      decide (0 ≤ diff) && decide (diff % max 1 rec.interval = 0)
    | .weekly =>
      let days := match rec.daysOfWeek with
        | some l => if l.length ≠ 0 then l else [weekdayOf rec.startDate]
        | none => [weekdayOf rec.startDate]
      if ¬ (weekdayOf day ∈ days) then false
      else
        let diffWeeks := weekOf day - weekOf rec.startDate
        decide (0 ≤ diffWeeks) && decide (diffWeeks % max 1 rec.interval = 0)

/-! ## Conflict resolver (src/components/WeekGrid.tsx)

`byDay` projects the blocks of one day to `{s, e, id}` records (start and
end minute of day), sorted by start time.  These projected records are
modelled by `DayItem`. -/

structure DayItem where
  s : Int
  e : Int
  id : String
deriving DecidableEq

/-- `computeOverlap(dayIndex, selfId, sM, eM)`: does the proposal overlap
any sibling of the day, the dragged block itself excluded. -/
def computeOverlap (dayBlocks : List DayItem) (selfId : String) (sM eM : Int) : Bool :=
  (dayBlocks.filter (fun x => x.id ≠ selfId)).any (fun ob => overlaps sM eM ob.s ob.e)

/-- The virtual occupied sentinels `{s:0,e:0}` / `{s:1440,e:1440}` that
`findNextGap` unshifts/pushes around the day's items. -/
def withSentinels (items : List DayItem) : List DayItem :=
  ⟨0, 0, "__start"⟩ :: (items ++ [⟨MINUTES_PER_DAY, MINUTES_PER_DAY, "__end"⟩])

/-- The scan loop of `findNextGap`: for every adjacent pair, try the gap
between `max(items[i].e, fromM)` and `items[i+1].s`. -/
def findNextGapAux (fromM duration : Int) : List DayItem → Int
  | a :: b :: rest =>
    let curEnd := max a.e fromM
    if curEnd + duration ≤ b.s then curEnd
    else findNextGapAux fromM duration (b :: rest)
  | _ => -1

/-- `findNextGap(dayIndex, fromM, duration)` from WeekGrid.tsx.  Note that
the source maps the day's blocks *without* filtering out the dragged block
itself. -/
def findNextGap (dayBlocks : List DayItem) (fromM duration : Int) : Int :=
  findNextGapAux fromM duration (withSentinels dayBlocks)

/-- `clipEndToFirstConflict(dayIndex, selfId, sM, eM)` from WeekGrid.tsx:
the proposed end, lowered to the start of every overlapping sibling that
starts strictly after `sM`. -/
def clipEndToFirstConflict (dayBlocks : List DayItem) (selfId : String) (sM eM : Int) : Int :=
  (dayBlocks.filter (fun x => x.id ≠ selfId)).foldl
    (fun limit it =>
      if overlaps sM eM it.s it.e && decide (sM < it.s) then min limit it.s else limit)
    eM

/-- Outcome of the pointer-release handler (`onUp`) for one proposal:
`placed`/`noConflict` commit the given minutes, `blockedOverlap` and
`noGap` leave the block unchanged and emit a notification. -/
inductive PushOutcome
  | placed (startM endM : Int)
  | noGap
  | noConflict (startM endM : Int)
deriving DecidableEq

/-- The `push` policy branch of `onUp` for a move proposal of `duration`
minutes at `sM` (the preview guarantees `eM = sM + duration`): on conflict
look for the next gap; commit it when found, otherwise notify and leave the
block unchanged. -/
def pushResolve (dayBlocks : List DayItem) (selfId : String) (sM duration : Int) : PushOutcome :=
  if computeOverlap dayBlocks selfId sM (sM + duration) then
    let ng := findNextGap dayBlocks sM duration
    if 0 ≤ ng then .placed ng (ng + duration) else .noGap
  else .noConflict sM (sM + duration)

/-- Modelled from the claim's words (not from the source): the same `push`
resolution but with the moved block itself excluded from the gap scan, as
the claim asserts. -/
def pushResolveClaim (dayBlocks : List DayItem) (selfId : String) (sM duration : Int) : PushOutcome :=
  if computeOverlap dayBlocks selfId sM (sM + duration) then
    let ng := findNextGap (dayBlocks.filter (fun x => x.id ≠ selfId)) sM duration
    if 0 ≤ ng then .placed ng (ng + duration) else .noGap
  else .noConflict sM (sM + duration)

/-- The `clip` policy branch of `onUp` for a resize proposal: on conflict
the end is clipped to the first conflict and bounded below by
`startM + SNAP_MIN`; the start is never touched.  Returns the committed
`(start, end)` pair in minutes. -/
def clipResize (dayBlocks : List DayItem) (selfId : String) (sM eM : Int) : Int × Int :=
  if computeOverlap dayBlocks selfId sM eM then
    (sM, max (clipEndToFirstConflict dayBlocks selfId sM eM) (sM + SNAP_MIN))
  else (sM, eM)

/-! ## Interactive operations (src/lib/commands.ts)

JavaScript mutates the block found by `Array.find` in place; here the list
is rebuilt: `replaceFirst` substitutes the first block with the given id,
`removeFirst` models `splice(idx, 1)` at the first matching index. -/

def replaceFirst (bid : String) (repl : Block) : List Block → List Block
  | [] => []
  | x :: xs => if x.block_id == bid then repl :: xs else x :: replaceFirst bid repl xs

def removeFirst (bid : String) : List Block → List Block
  | [] => []
  | x :: xs => if x.block_id == bid then xs else x :: removeFirst bid xs

/-- `blk.recurrence?.id` as used by the series branches: the id of the
block's recurrence when present (JavaScript `undefined` otherwise). -/
def recIdOf (x : Block) : Option String := x.recurrence.map (fun r => r.id)

/-- The body of the propagation loop of `moveBlock`: every other non-done
member of the series is shifted by `delta` and receives a copy of the
updated rule. -/
def propagateMove (bid recId : String) (delta : Int) (newRec : BlockRecurrence)
    (x : Block) : Block :=
  if x.block_id == bid then x
  else if (recIdOf x == some recId) && !(x.status == .done) then
    { x with start := x.start + delta, «end» := x.«end» + delta,
             recurrence := some newRec, rev := x.rev + 1 }
  else x

/-- `moveBlock(block_id, newStartISO)` from src/lib/commands.ts.  The block
keeps its duration; when it belongs to a series (`recurrence.id` truthy,
i.e. a non-empty string) the rule's anchor is shifted by the same delta
(`setRecurrenceAnchor` splits the shifted anchor back into a date and a
minute-of-day) and all other non-done members are shifted as well.
`none` models the thrown `NOT_FOUND: block`. -/
def moveBlock (blocks : List Block) (bid : String) (newStart : Int) : Option (List Block) :=
  match blocks.find? (fun x => x.block_id == bid) with
  | none => none
  | some b =>
    let dur := b.«end» - b.start
    let delta := newStart - b.start
    let b1 : Block := { b with start := newStart, «end» := newStart + dur, rev := b.rev + 1 }
    match b.recurrence with
    | some r =>
      if r.id ≠ "" then
        let anchorAbs := r.startDate * 1440 + r.startMinute + delta
        let newDur := b1.«end» - b1.start
        let r1 : BlockRecurrence :=
          { r with startDate := anchorAbs.fdiv 1440, startMinute := anchorAbs.emod 1440,
                   duration := newDur }
        let b2 : Block := { b1 with recurrence := some r1 }
        some ((replaceFirst bid b2 blocks).map (propagateMove bid r.id delta r1))
      else some (replaceFirst bid b1 blocks)
    | none => some (replaceFirst bid b1 blocks)

/-- `toggleBlockDone(block_id)`: flips `done` to `planned` and anything
else to `done`; returns the updated collection and the new status. -/
def toggleBlockDone (blocks : List Block) (bid : String) :
    Option (List Block × BlockStatus) :=
  match blocks.find? (fun x => x.block_id == bid) with
  | none => none
  | some b =>
    let s1 : BlockStatus := if b.status = .done then .planned else .done
    some (replaceFirst bid { b with status := s1 } blocks, s1)

inductive DeleteScope
  | single
  | series
deriving DecidableEq

/-- `deleteBlock(block_id, scope)` from src/lib/commands.ts.  For a series
member deleted with scope `single`, the occurrence's date is recorded in
the rule's `exceptions` (created empty by `ensureExceptions` when absent)
and the updated rule is cloned onto every remaining member. -/
def deleteBlock (blocks : List Block) (bid : String) (scope : DeleteScope) :
    Option (List Block) :=
  match blocks.find? (fun x => x.block_id == bid) with
  | none => none
  | some blk =>
    let recId : Option String := match blk.recurrence with
      | some r => if r.id ≠ "" then some r.id else none
      | none => none
    match recId with
    | some rid =>
      match scope with
      | .series => some (blocks.filter (fun x => !(recIdOf x == some rid)))
      | .single =>
        let dateISO := blk.start.fdiv 1440
        let rest := removeFirst bid blocks
        match rest.filter (fun x => recIdOf x == some rid) with
        | [] => some rest
        | o0 :: _ =>
          match o0.recurrence with
          | some r0 =>
            let exc := r0.exceptions.getD []
            let exc1 := if dateISO ∈ exc then exc else exc ++ [dateISO]
            let rec1 : BlockRecurrence := { r0 with exceptions := some exc1 }
            some (rest.map (fun x =>
              if recIdOf x == some rid
              then { x with recurrence := some rec1, rev := x.rev + 1 }
              else x))
          | none => some rest
    | none => some (removeFirst bid blocks)

/-! ## Command pipeline (src/lib/commands.ts, applyCommandsFromInbox) -/

/-- `nid(prefix)` modelled with a deterministic fresh counter. -/
def nid (pre : String) (n : Nat) : String := pre ++ "_" ++ toString n

/-- The `patch` object of `update_task`, applied with `Object.assign`:
every present field overwrites the task's field. -/
structure TaskPatch where
  title : Option String
  notes : Option String
  priority : Option Int
deriving DecidableEq

def applyPatch (t : Task) (p : TaskPatch) : Task :=
  { t with
    title := p.title.getD t.title,
    notes := match p.notes with | some n => some n | none => t.notes,
    priority := p.priority.getD t.priority }

/-- The tagged `command{type, payload}` of an envelope.  `unknown` stands
for any type string outside the switch (the `default` branch). -/
inductive CommandKind
  | create_task (task_id : Option String) (title : Option String)
      (notes : Option String) (priority : Option Int)
  | create_block (block_id : Option String) (task_id : Option String)
      (title : Option String) (start : Int) («end» : Int)
      (recurrence : Option BlockRecurrence)
  | move_block (block_id : String) (new_start : Int)
  | resize_block (block_id : String) (new_end : Int)
  | complete_block (block_id : String)
  | update_task (task_id : String) (patch : TaskPatch)
  | set_recurrence (task_id : String) (rrule : String)
  | unknown (tag : String)
deriving DecidableEq

structure AICommandEnvelope where
  id : String
  actor : String
  issued_at : Int
  command : CommandKind
deriving DecidableEq

/-- One per-command result `{for, ok, error?}`; the `effects` payloads are
not inspected by any claim and are omitted from the model. -/
structure ApplyResult where
  forId : String
  ok : Bool
  error : Option String
deriving DecidableEq

/-- The in-memory collections plus the fresh-id counter and the wall clock
(`new Date()`) threaded through the executor. -/
structure ExecState where
  tasks : List Task
  blocks : List Block
  fresh : Nat
  now : Int
deriving DecidableEq

/-- `String(e)` for a thrown `Error(msg)`. -/
def errStr (msg : String) : String := "Error: " ++ msg

/-- In-place mutation of the first task found by `Array.find`. -/
def replaceFirstTask (tid : String) (repl : Task) : List Task → List Task
  | [] => []
  | x :: xs => if x.task_id == tid then repl :: xs else x :: replaceFirstTask tid repl xs

def mkTask (id : String) (title notes : Option String) (prio : Option Int)
    (now : Int) : Task :=
  { task_id := id, title := title.getD "未命名任务", notes := notes,
    checklist := [], priority := prio.getD 0, tags := [],
    created_at := now, updated_at := now, recurrence := none }

/-- One iteration of the command loop of `applyCommandsFromInbox`: the
switch over `command.type`, with the catch-block turning a thrown
`NOT_FOUND` into a failed result that leaves the collections untouched. -/
def applyOne (st : ExecState) (env : AICommandEnvelope) : ExecState × ApplyResult :=
  match env.command with
  | .create_task tid title notes prio =>
    match tid with
    | some id =>
      ({ st with tasks := st.tasks ++ [mkTask id title notes prio st.now] },
       ⟨env.id, true, none⟩)
    | none =>
      ({ st with tasks := st.tasks ++ [mkTask (nid "tsk" st.fresh) title notes prio st.now],
                 fresh := st.fresh + 1 },
       ⟨env.id, true, none⟩)
  | .create_block bidOpt tid title s e rec =>
    let push := fun (id : String) (st1 : ExecState) =>
      { st1 with blocks := st1.blocks ++
          [{ block_id := id, task_id := tid, title := title, notes_override := none,
             start := s, «end» := e, status := .planned, rev := 1, recurrence := rec }] }
    match bidOpt with
    | some id => (push id st, ⟨env.id, true, none⟩)
    | none => (push (nid "blk" st.fresh) { st with fresh := st.fresh + 1 }, ⟨env.id, true, none⟩)
  | .move_block bid ns =>
    match st.blocks.find? (fun x => x.block_id == bid) with
    | none => (st, ⟨env.id, false, some (errStr "NOT_FOUND: block")⟩)
    | some b =>
      let dur := b.«end» - b.start
      let b1 : Block := { b with start := ns, «end» := ns + dur, rev := b.rev + 1 }
      ({ st with blocks := replaceFirst bid b1 st.blocks }, ⟨env.id, true, none⟩)
  | .resize_block bid ne =>
    match st.blocks.find? (fun x => x.block_id == bid) with
    | none => (st, ⟨env.id, false, some (errStr "NOT_FOUND: block")⟩)
    | some b =>
      let b1 : Block := { b with «end» := ne, rev := b.rev + 1 }
      ({ st with blocks := replaceFirst bid b1 st.blocks }, ⟨env.id, true, none⟩)
  | .complete_block bid =>
    match st.blocks.find? (fun x => x.block_id == bid) with
    | none => (st, ⟨env.id, false, some (errStr "NOT_FOUND: block")⟩)
    | some b =>
      let b1 : Block := { b with status := .done }
      ({ st with blocks := replaceFirst bid b1 st.blocks }, ⟨env.id, true, none⟩)
  | .update_task tid patch =>
    match st.tasks.find? (fun x => x.task_id == tid) with
    | none => (st, ⟨env.id, false, some (errStr "NOT_FOUND: task")⟩)
    | some t =>
      ({ st with tasks := replaceFirstTask tid (applyPatch t patch) st.tasks },
       ⟨env.id, true, none⟩)
  | .set_recurrence tid rrule =>
    match st.tasks.find? (fun x => x.task_id == tid) with
    | none => (st, ⟨env.id, false, some (errStr "NOT_FOUND: task")⟩)
    | some t =>
      ({ st with tasks := replaceFirstTask tid { t with recurrence := some rrule } st.tasks },
       ⟨env.id, true, none⟩)
  | .unknown tag => (st, ⟨env.id, false, some ("UNSUPPORTED: " ++ tag)⟩)

/-- The `for (const cmd of lines)` loop: commands are applied in order, one
result per envelope, failures never stop the loop. -/
def applyEnvs (st : ExecState) : List AICommandEnvelope → ExecState × List ApplyResult
  | [] => (st, [])
  | env :: rest =>
    let r := applyOne st env
    let rs := applyEnvs r.1 rest
    (rs.1, r.2 :: rs.2)

/-- `applyCommandsFromInbox` restricted to its in-memory core: the parsed
envelopes of the inbox are applied to the loaded collections. -/
def applyCommandsFromInbox (envs : List AICommandEnvelope) (st : ExecState) :
    ExecState × List ApplyResult :=
  applyEnvs st envs

/-! ## Batch signature and idempotent application (src/App.tsx) -/

/-- Signed 32-bit wrap-around, JavaScript's `| 0`. -/
def toInt32 (n : Int) : Int := (n + 2 ^ 31).emod (2 ^ 32) - 2 ^ 31

/-- One step of `hashStr`: `h = ((h << 5) - h) + charCode; h |= 0`.  The
shift itself is a 32-bit operation in JavaScript. -/
def hashStep (h : Int) (c : Nat) : Int := toInt32 (toInt32 (h * 32) - h + c)

/-- `hashStr(s)` from src/App.tsx (returned number rendered in decimal). -/
def hashStr (s : String) : Int := s.data.foldl (fun h ch => hashStep h ch.toNat) 0

/-- The batch signature `raw.length + ':' + hashStr(raw)` computed for a
non-empty inbox content. -/
def sigOf (raw : String) : String := toString raw.length ++ ":" ++ toString (hashStr raw)

/-- App-level state: the persisted collections (inside `exec`) plus the
last-applied signature `lastSig`. -/
structure AppState where
  exec : ExecState
  lastSig : String
deriving DecidableEq

/-- `onApplyCommands` from src/App.tsx: compute the signature of the raw
inbox content (empty signature for empty content), skip the whole batch
when it matches `lastSig`, otherwise run the pipeline and record the new
signature.  `envs` is the parse of `raw`; parsing is deterministic, so two
reads of the same content yield the same envelope list. -/
def onApplyCommands (raw : String) (envs : List AICommandEnvelope) (st : AppState) :
    AppState × List ApplyResult :=
  let sig := if raw = "" then "" else sigOf raw
  if sig ≠ "" ∧ sig = st.lastSig then (st, [])
  else
    let res := applyCommandsFromInbox envs st.exec
    ({ exec := res.1, lastSig := if sig = "" then st.lastSig else sig }, res.2)

/-! ## Helper lemmas about first-match replacement -/

theorem length_replaceFirst (bid : String) (repl : Block) (l : List Block) :
    (replaceFirst bid repl l).length = l.length := by
  induction l with
  | nil => rfl
  | cons x xs ih =>
    simp only [replaceFirst]
    split <;> simp [ih]

theorem replaceFirst_getElem? (bid : String) (repl : Block) (l : List Block) (i : Nat) :
    (replaceFirst bid repl l)[i]? = l[i]? ∨
    (∃ x, l[i]? = some x ∧ (x.block_id == bid) = true ∧
      (replaceFirst bid repl l)[i]? = some repl ∧
      l.find? (fun y => y.block_id == bid) = some x) := by
  induction l generalizing i with
  | nil => left; rfl
  | cons y ys ih =>
    by_cases hy : (y.block_id == bid) = true
    · cases i with
      | zero =>
        right
        exact ⟨y, by simp, hy, by simp [replaceFirst, hy], by simp [List.find?, hy]⟩
      | succ n => left; simp [replaceFirst, hy]
    · cases i with
      | zero => left; simp [replaceFirst, hy]
      | succ n =>
        rcases ih n with h1 | ⟨x, hx1, hx2, hx3, hx4⟩
        · left; simpa [replaceFirst, hy] using h1
        · right
          refine ⟨x, by simpa using hx1, hx2, ?_, ?_⟩
          · simpa [replaceFirst, hy] using hx3
          · simp [List.find?, hy, hx4]

theorem find?_replaceFirst (bid : String) (b repl : Block) (l : List Block)
    (h : l.find? (fun x => x.block_id == bid) = some b)
    (hrepl : repl.block_id = b.block_id) :
    (replaceFirst bid repl l).find? (fun x => x.block_id == bid) = some repl := by
  induction l with
  | nil => simp [List.find?] at h
  | cons y ys ih =>
    by_cases hy : (y.block_id == bid) = true
    · have hyb : y = b := by
        simp only [List.find?, hy] at h
        exact Option.some.inj h
      subst hyb
      have : (repl.block_id == bid) = true := by
        rw [hrepl]; exact hy
      simp [replaceFirst, hy, List.find?, this]
    · simp only [List.find?, hy] at h
      simp [replaceFirst, hy, List.find?, ih h]

/-! ## Claim C8: ISO construction from date + minute offset -/

/-- C8 counterexample: `clamp(minutes, 0, MINUTES_PER_DAY)` clamps into the
*closed* range [0, 1440]; at minute offset 1441 (and already at 1440) the
effective offset is exactly 1440, so both ISO-construction functions return
midnight of the *following* day — the claimed half-open clamp to [0, 1440)
is violated. -/
theorem isoConstruction_offset_reaches_1440 :
    isoForDateAndMinutes 0 1441 = 1 * 1440 ∧
    isoForDayAndMinutes 0 0 1441 = 1 * 1440 ∧
    isoForDateAndMinutes 0 1440 = 1 * 1440 := by decide

/-- C8 (amended): for every calendar date and every integer minute offset
`m`, the ISO-construction functions return local midnight of that date plus
`m` clamped into the closed range [0, 1440]; the effective offset can equal
1440 (exactly when `m ≥ 1440`), in which case the result is midnight of the
following day, and for `m < 1440` the result stays strictly before the
following day. -/
theorem isoConstruction_clamped_closed (date m : Int) :
    isoForDateAndMinutes date m = date * 1440 + clamp m 0 MINUTES_PER_DAY ∧
    0 ≤ clamp m 0 MINUTES_PER_DAY ∧ clamp m 0 MINUTES_PER_DAY ≤ 1440 ∧
    date * 1440 ≤ isoForDateAndMinutes date m ∧
    isoForDateAndMinutes date m ≤ (date + 1) * 1440 ∧
    (m < 1440 → isoForDateAndMinutes date m < (date + 1) * 1440) ∧
    (1440 ≤ m → isoForDateAndMinutes date m = (date + 1) * 1440) ∧
    (∀ wk di, isoForDayAndMinutes wk di m = isoForDateAndMinutes (wk + di) m) := by
  unfold isoForDateAndMinutes isoForDayAndMinutes clamp MINUTES_PER_DAY
  refine ⟨rfl, ?_, ?_, ?_, ?_, ?_, ?_, fun wk di => rfl⟩ <;> omega

theorem isoConstruction_clamped_closed_witness :
    isoForDateAndMinutes 3 100 < (3 + 1) * 1440 ∧
    isoForDateAndMinutes 3 1500 = (3 + 1) * 1440 :=
  ⟨(isoConstruction_clamped_closed 3 100).2.2.2.2.2.1 (by decide),
   (isoConstruction_clamped_closed 3 1500).2.2.2.2.2.2.1 (by decide)⟩

/-! ## Claim C6: daily recurrence inclusion -/

/-- The recurrence rule of the spec's example: anchor 2024-01-01 (epoch
day 0, a Monday), daily with interval 2. -/
def dailyEveryTwoDays : BlockRecurrence :=
  { id := "r", type := .daily, interval := 2, daysOfWeek := none,
    startDate := 0, startMinute := 540, duration := 60, «until» := none,
    exceptions := none }

/-- C6: for a daily rule (with the data-model invariant `interval ≥ 1`),
`shouldIncludeDate` holds exactly when the day is on or after the anchor,
at or before the `until` limit when one is set, not an exception, and at a
whole multiple of `interval` days from the anchor; and over the 10-day
horizon of the spec's example (2024-01-01 = day 0, interval 2) the
qualifying offsets are exactly 0, 2, 4, 6, 8 — i.e. 01-01, 01-03, 01-05,
01-07, 01-09. -/
theorem shouldIncludeDate_daily_spec (rec : BlockRecurrence) (day : Int)
    (htype : rec.type = .daily) (hint : 1 ≤ rec.interval) :
    (shouldIncludeDate rec day = true ↔
      rec.startDate ≤ day ∧ (∀ u, rec.«until» = some u → day ≤ u) ∧
      day ∉ rec.exceptions.getD [] ∧ (day - rec.startDate) % rec.interval = 0) ∧
    (List.range 10).filter (fun i => shouldIncludeDate dailyEveryTwoDays (i : Int)) =
      [0, 2, 4, 6, 8] := by
  have hmax : max 1 rec.interval = rec.interval := max_eq_right hint
  refine ⟨?_, by decide⟩
  rcases hu : rec.«until» with _ | u
  · constructor
    · intro h
      simp only [shouldIncludeDate, htype, hu, hmax] at h
      rw [if_neg (by simp)] at h
      by_cases h1 : day < rec.startDate
      · rw [if_pos h1] at h
        exact absurd h (by simp)
      rw [if_neg h1] at h
      by_cases h2 : day ∈ rec.exceptions.getD []
      · rw [if_pos (by simpa using h2)] at h
        exact absurd h (by simp)
      rw [if_neg (by simpa using h2)] at h
      rw [Bool.and_eq_true, decide_eq_true_eq, decide_eq_true_eq] at h
      exact ⟨by omega, (fun v hv => nomatch hv), h2, h.2⟩
    · rintro ⟨ha, -, hexc, hmod⟩
      simp only [shouldIncludeDate, htype, hu, hmax]
      rw [if_neg (by simp), if_neg (by omega), if_neg (by simpa using hexc)]
      rw [Bool.and_eq_true, decide_eq_true_eq, decide_eq_true_eq]
      exact ⟨by omega, hmod⟩
  · constructor
    · intro h
      simp only [shouldIncludeDate, htype, hu, hmax] at h
      by_cases h0 : day > u
      · rw [if_pos (by simpa using h0)] at h
        exact absurd h (by simp)
      rw [if_neg (by simpa using h0)] at h
      by_cases h1 : day < rec.startDate
      · rw [if_pos h1] at h
        exact absurd h (by simp)
      rw [if_neg h1] at h
      by_cases h2 : day ∈ rec.exceptions.getD []
      · rw [if_pos (by simpa using h2)] at h
        exact absurd h (by simp)
      rw [if_neg (by simpa using h2)] at h
      rw [Bool.and_eq_true, decide_eq_true_eq, decide_eq_true_eq] at h
      refine ⟨by omega, fun v hv => ?_, h2, h.2⟩
      cases hv
      omega
    · rintro ⟨ha, hun, hexc, hmod⟩
      have hle : day ≤ u := hun u rfl
      simp only [shouldIncludeDate, htype, hu, hmax]
      rw [if_neg (by simp; omega), if_neg (by omega), if_neg (by simpa using hexc)]
      rw [Bool.and_eq_true, decide_eq_true_eq, decide_eq_true_eq]
      exact ⟨by omega, hmod⟩

theorem shouldIncludeDate_daily_spec_witness :
    shouldIncludeDate dailyEveryTwoDays 4 = true :=
  ((shouldIncludeDate_daily_spec dailyEveryTwoDays 4 rfl (by decide)).1).mpr
    ⟨by decide, (fun u h => nomatch h), by decide, by decide⟩

/-! ## Claim C10: toggleBlockDone -/

/-- C10: for a block present in the collection, `toggleBlockDone` sets the
status to `planned` when it was `done` and to `done` for every other
status; toggling twice therefore ends at `planned` whenever the block was
not `done` (so `in_progress` / `skipped` are lost), and at `done` when it
was `done`. -/
theorem toggleBlockDone_spec (blocks : List Block) (bid : String) (b : Block)
    (h : blocks.find? (fun x => x.block_id == bid) = some b) :
    ∃ blocks1 blocks2,
      toggleBlockDone blocks bid =
        some (blocks1, if b.status = .done then .planned else .done) ∧
      toggleBlockDone blocks1 bid =
        some (blocks2, if b.status = .done then .done else .planned) := by
  by_cases hb : b.status = .done
  · rw [if_pos hb, if_pos hb]
    have h1 : toggleBlockDone blocks bid =
        some (replaceFirst bid { b with status := .planned } blocks, .planned) := by
      simp [toggleBlockDone, h, hb]
    have hf := find?_replaceFirst bid b { b with status := .planned } blocks h rfl
    have h2 : toggleBlockDone (replaceFirst bid { b with status := .planned } blocks) bid =
        some (replaceFirst bid { b with status := .done }
          (replaceFirst bid { b with status := .planned } blocks), .done) := by
      simp [toggleBlockDone, hf]
    exact ⟨_, _, h1, h2⟩
  · rw [if_neg hb, if_neg hb]
    have h1 : toggleBlockDone blocks bid =
        some (replaceFirst bid { b with status := .done } blocks, .done) := by
      simp [toggleBlockDone, h, hb]
    have hf := find?_replaceFirst bid b { b with status := .done } blocks h rfl
    have h2 : toggleBlockDone (replaceFirst bid { b with status := .done } blocks) bid =
        some (replaceFirst bid { b with status := .planned }
          (replaceFirst bid { b with status := .done } blocks), .planned) := by
      simp [toggleBlockDone, hf]
    exact ⟨_, _, h1, h2⟩

theorem toggleBlockDone_spec_witness :
    ∃ blocks1 blocks2,
      toggleBlockDone [⟨"a", none, none, none, 0, 60, .in_progress, 1, none⟩] "a" =
        some (blocks1,
          if (BlockStatus.in_progress = .done) then .planned else .done) ∧
      toggleBlockDone blocks1 "a" =
        some (blocks2, if (BlockStatus.in_progress = .done) then .done else .planned) :=
  toggleBlockDone_spec [⟨"a", none, none, none, 0, 60, .in_progress, 1, none⟩] "a"
    ⟨"a", none, none, none, 0, 60, .in_progress, 1, none⟩ (by decide)

/-! ## Claim C9: moves preserve duration -/

/-- C9: both the interactive `moveBlock` and the pipeline's `move_block`
command set the new end to the new start plus the block's stored duration
(`end − start` in minutes); every block of the resulting collection —
moved, series-shifted or untouched — keeps its duration. -/
theorem propagateMove_dur (bid recId : String) (delta : Int) (nr : BlockRecurrence)
    (x : Block) :
    (propagateMove bid recId delta nr x).«end» - (propagateMove bid recId delta nr x).start =
      x.«end» - x.start := by
  unfold propagateMove
  split
  · rfl
  · split
    · show (x.«end» + delta) - (x.start + delta) = x.«end» - x.start
      ring
    · rfl

theorem replaceFirst_dur (blocks : List Block) (bid : String) (b repl : Block)
    (hfind : blocks.find? (fun x => x.block_id == bid) = some b)
    (hdur : repl.«end» - repl.start = b.«end» - b.start) :
    ∀ (i : Nat) x x', blocks[i]? = some x →
      (replaceFirst bid repl blocks)[i]? = some x' →
      x'.«end» - x'.start = x.«end» - x.start := by
  intro i x x' hx hx'
  rcases replaceFirst_getElem? bid repl blocks i with hsame | ⟨x0, hx0, -, hx0', hfind0⟩
  · rw [hsame, hx] at hx'
    cases hx'
    rfl
  · have hxx0 : x0 = x := by rw [hx0] at hx; exact Option.some.inj hx
    have hx0b : x0 = b := by rw [hfind0] at hfind; exact Option.some.inj hfind
    rw [hx0'] at hx'
    cases hx'
    rw [hdur, ← hx0b, hxx0]

theorem replaceFirst_map_dur (blocks : List Block) (bid : String) (b repl : Block)
    (f : Block → Block)
    (hfind : blocks.find? (fun x => x.block_id == bid) = some b)
    (hdur : repl.«end» - repl.start = b.«end» - b.start)
    (hf : ∀ y, (f y).«end» - (f y).start = y.«end» - y.start) :
    ∀ (i : Nat) x x', blocks[i]? = some x →
      ((replaceFirst bid repl blocks).map f)[i]? = some x' →
      x'.«end» - x'.start = x.«end» - x.start := by
  intro i x x' hx hx'
  rw [List.getElem?_map] at hx'
  rcases replaceFirst_getElem? bid repl blocks i with hsame | ⟨x0, hx0, -, hx0', hfind0⟩
  · rw [hsame, hx] at hx'
    simp only [Option.map_some'] at hx'
    cases hx'
    exact hf x
  · have hxx0 : x0 = x := by rw [hx0] at hx; exact Option.some.inj hx
    have hx0b : x0 = b := by rw [hfind0] at hfind; exact Option.some.inj hfind
    rw [hx0'] at hx'
    simp only [Option.map_some'] at hx'
    cases hx'
    rw [hf repl, hdur, ← hx0b, hxx0]

theorem move_preserves_duration :
    (∀ (blocks : List Block) (bid : String) (ns : Int) (blocks' : List Block),
      moveBlock blocks bid ns = some blocks' →
      ∀ (i : Nat) x x', blocks[i]? = some x → blocks'[i]? = some x' →
        x'.«end» - x'.start = x.«end» - x.start) ∧
    (∀ (st : ExecState) (env : AICommandEnvelope) (bid : String) (ns : Int),
      env.command = .move_block bid ns →
      ∀ (i : Nat) x x', st.blocks[i]? = some x →
        ((applyOne st env).1).blocks[i]? = some x' →
        x'.«end» - x'.start = x.«end» - x.start) := by
  constructor
  · intro blocks bid ns blocks' hrun i x x' hx hx'
    cases hfind : blocks.find? (fun y => y.block_id == bid) with
    | none =>
      simp only [moveBlock, hfind] at hrun
      cases hrun
    | some b =>
      cases hrec : b.recurrence with
      | none =>
        simp only [moveBlock, hfind, hrec, Option.some.injEq] at hrun
        subst hrun
        exact replaceFirst_dur blocks bid b _ hfind
          (show ns + (b.«end» - b.start) - ns = b.«end» - b.start from by ring) i x x' hx hx'
      | some r =>
        rcases eq_or_ne r.id "" with hid | hid
        · simp only [moveBlock, hfind, hrec, hid, ne_eq, not_true_eq_false, if_false,
            Option.some.injEq] at hrun
          subst hrun
          exact replaceFirst_dur blocks bid b _ hfind
            (show ns + (b.«end» - b.start) - ns = b.«end» - b.start from by ring) i x x' hx hx'
        · simp only [moveBlock, hfind, hrec, ne_eq, hid, not_false_eq_true, if_true,
            Option.some.injEq] at hrun
          subst hrun
          exact replaceFirst_map_dur blocks bid b _ _ hfind
            (show ns + (b.«end» - b.start) - ns = b.«end» - b.start from by ring)
            (propagateMove_dur bid r.id (ns - b.start) _) i x x' hx hx'
  · intro st env bid ns hcmd i x x' hx hx'
    cases env with
    | mk eid actor iss cmd =>
      simp only at hcmd
      subst hcmd
      cases hfind : st.blocks.find? (fun y => y.block_id == bid) with
      | none =>
        simp only [applyOne, hfind] at hx'
        rw [hx] at hx'
        cases hx'
        rfl
      | some b =>
        simp only [applyOne, hfind] at hx'
        exact replaceFirst_dur st.blocks bid b _ hfind
          (show ns + (b.«end» - b.start) - ns = b.«end» - b.start from by ring) i x x' hx hx'

/-! ## Claim C2: series propagation of interactive moves -/

theorem propagateMove_of_done (bid recId : String) (delta : Int) (nr : BlockRecurrence)
    (x : Block) (hx : x.status = .done) :
    propagateMove bid recId delta nr x = x := by
  unfold propagateMove
  split
  · rfl
  · rw [if_neg (by simp [hx])]

theorem propagateMove_of_other (bid recId : String) (delta : Int) (nr : BlockRecurrence)
    (x : Block) (hbid : (x.block_id == bid) = false) (hser : recIdOf x = some recId)
    (hnd : x.status ≠ .done) :
    propagateMove bid recId delta nr x =
      { x with start := x.start + delta, «end» := x.«end» + delta,
               recurrence := some nr, rev := x.rev + 1 } := by
  unfold propagateMove
  rw [if_neg (by simp [hbid]), if_pos (by simp [hser, hnd])]

/-- C2: when a non-done member of a series (non-empty `recurrence.id`) is
moved by `moveBlock`, every other member of the same series whose status is
not `done` has its start and end shifted by exactly the same delta
`newStart − b.start`, and every `done` member keeps its start and end
unchanged; the collection keeps its length. -/
theorem moveBlock_series_propagation
    (blocks : List Block) (bid : String) (newStart : Int) (b : Block)
    (r : BlockRecurrence) (blocks' : List Block)
    (hfind : blocks.find? (fun x => x.block_id == bid) = some b)
    (hrec : b.recurrence = some r) (hid : r.id ≠ "")
    (hnd : b.status ≠ .done)
    (hrun : moveBlock blocks bid newStart = some blocks') :
    blocks'.length = blocks.length ∧
    ∀ (i : Nat) x x', blocks[i]? = some x → blocks'[i]? = some x' →
      ((x.status = .done → x'.start = x.start ∧ x'.«end» = x.«end») ∧
       ((x.block_id == bid) = false → recIdOf x = some r.id → x.status ≠ .done →
        x'.start = x.start + (newStart - b.start) ∧
        x'.«end» = x.«end» + (newStart - b.start))) := by
  simp only [moveBlock, hfind, hrec, ne_eq, hid, not_false_eq_true, if_true,
    Option.some.injEq] at hrun
  subst hrun
  refine ⟨by rw [List.length_map, length_replaceFirst], ?_⟩
  intro i x x' hx hx'
  rw [List.getElem?_map] at hx'
  rcases replaceFirst_getElem? bid
      { b with start := newStart, «end» := newStart + (b.«end» - b.start), rev := b.rev + 1,
               recurrence := some
                 { r with
                   startDate := (r.startDate * 1440 + r.startMinute + (newStart - b.start)).fdiv 1440,
                   startMinute := (r.startDate * 1440 + r.startMinute + (newStart - b.start)).emod 1440,
                   duration := newStart + (b.«end» - b.start) - newStart } } blocks i
    with hsame | ⟨x0, hx0, hbid0, hx0', hfind0⟩
  · rw [hsame, hx] at hx'
    simp only [Option.map_some'] at hx'
    cases hx'
    constructor
    · intro hxd
      rw [propagateMove_of_done _ _ _ _ _ hxd]
      exact ⟨rfl, rfl⟩
    · intro hbid hser hnd'
      rw [propagateMove_of_other _ _ _ _ _ hbid hser hnd']
      exact ⟨rfl, rfl⟩
  · have hxx0 : x0 = x := by rw [hx0] at hx; exact Option.some.inj hx
    have hx0b : x0 = b := by rw [hfind0] at hfind; exact Option.some.inj hfind
    subst hxx0
    subst hx0b
    constructor
    · intro hxd
      exact absurd hxd hnd
    · intro hbid
      rw [hbid0] at hbid
      cases hbid

/-- A three-member daily series used as concrete witness data: occurrences
on days 0, 1 and 2 at minute 100, the day-2 occurrence already `done`. -/
def seriesRecDemo : BlockRecurrence :=
  ⟨"s", .daily, 1, none, 0, 100, 60, none, none⟩

def seriesRecDemoShifted : BlockRecurrence :=
  ⟨"s", .daily, 1, none, 0, 130, 60, none, none⟩

def seriesDemo : List Block :=
  [⟨"a", none, none, none, 100, 160, .planned, 1, some seriesRecDemo⟩,
   ⟨"b", none, none, none, 1540, 1600, .planned, 1, some seriesRecDemo⟩,
   ⟨"c", none, none, none, 2980, 3040, .done, 1, some seriesRecDemo⟩]

def seriesDemoMoved : List Block :=
  [⟨"a", none, none, none, 130, 190, .planned, 2, some seriesRecDemoShifted⟩,
   ⟨"b", none, none, none, 1570, 1630, .planned, 2, some seriesRecDemoShifted⟩,
   ⟨"c", none, none, none, 2980, 3040, .done, 1, some seriesRecDemo⟩]

theorem moveBlock_series_propagation_witness :
    seriesDemoMoved.length = seriesDemo.length ∧
    ∀ (i : Nat) x x', seriesDemo[i]? = some x → seriesDemoMoved[i]? = some x' →
      ((x.status = .done → x'.start = x.start ∧ x'.«end» = x.«end») ∧
       ((x.block_id == "a") = false → recIdOf x = some "s" → x.status ≠ .done →
        x'.start = x.start + (130 - 100) ∧ x'.«end» = x.«end» + (130 - 100))) :=
  moveBlock_series_propagation seriesDemo "a" 130
    ⟨"a", none, none, none, 100, 160, .planned, 1, some seriesRecDemo⟩ seriesRecDemo
    seriesDemoMoved (by decide) (by decide) (by decide) (by decide) (by decide)

/-! ## Claim C1: push policy

`findNextGap` in the source maps `byDay[...]` — the whole day including the
dragged block's own current occurrence — whereas the claim says the moved
block is excluded from the scan.  `pushResolveClaim` (defined above from
the claim's words) differs from the source's behaviour exactly there. -/

/-- The day used for the counterexample: the dragged block `self` currently
sits at 10:00–11:00 on the same day, a sibling occupies 09:00–10:00. -/
def pushCexDay : List DayItem := [⟨540, 600, "sib"⟩, ⟨600, 660, "self"⟩]

/-- C1 counterexample: proposing to move the 60-minute block `self` to
09:30 conflicts with the 09:00–10:00 sibling; excluding the moved block, as
the claim demands, the earliest fitting gap at or after 09:30 starts at
10:00 — the block's own current slot — but the source scans the day
*including* the moved block and therefore places it at 11:00–12:00
instead. -/
theorem pushResolve_includes_self_counterexample :
    pushResolve pushCexDay "self" 570 60 = .placed 660 720 ∧
    pushResolveClaim pushCexDay "self" 570 60 = .placed 600 660 ∧
    PushOutcome.placed 660 720 ≠ PushOutcome.placed 600 660 := by decide

/-- Sorted, pairwise non-overlapping day layout: each item's interval is
ordered (`s ≤ e`) and ends before the next one starts. -/
def wellLaid : List DayItem → Bool
  | [] => true
  | [a] => decide (a.s ≤ a.e)
  | a :: b :: rest => decide (a.s ≤ a.e) && decide (a.e ≤ b.s) && wellLaid (b :: rest)

/-- The last item of the scan list is the virtual day-end sentinel. -/
def lastIsDayEnd : List DayItem → Prop
  | [] => False
  | [a] => a.s = MINUTES_PER_DAY ∧ a.e = MINUTES_PER_DAY
  | _ :: rest => lastIsDayEnd rest

/-- `p` is a valid placement of a `duration`-minute block at or after
`fromM`: inside the day and overlapping none of the day's items. -/
def Fits (dayBlocks : List DayItem) (fromM duration p : Int) : Prop :=
  fromM ≤ p ∧ 0 ≤ p ∧ p + duration ≤ MINUTES_PER_DAY ∧
  ∀ it ∈ dayBlocks, overlaps p (p + duration) it.s it.e = false

/-- No clash between the placement `[p, q)` and an occupied item. -/
def NoClash (p q : Int) (it : DayItem) : Prop := q ≤ it.s ∨ it.e ≤ p

/-- Feasibility relative to a suffix of the sentinel-extended scan list:
`floor` is the end of the item currently under the scan cursor. -/
def GapFrom (fromM duration floor : Int) (rest : List DayItem) (p : Int) : Prop :=
  fromM ≤ p ∧ floor ≤ p ∧ p + duration ≤ MINUTES_PER_DAY ∧
  ∀ it ∈ rest, NoClash p (p + duration) it

theorem wellLaid_parts (a b : DayItem) (rest : List DayItem)
    (h : wellLaid (a :: b :: rest) = true) :
    a.s ≤ a.e ∧ a.e ≤ b.s ∧ wellLaid (b :: rest) = true := by
  simp only [wellLaid, Bool.and_eq_true, decide_eq_true_eq] at h
  exact ⟨h.1.1, h.1.2, h.2⟩

theorem wellLaid_head (a : DayItem) (rest : List DayItem)
    (h : wellLaid (a :: rest) = true) : a.s ≤ a.e := by
  cases rest with
  | nil => simpa [wellLaid] using h
  | cons b rest' => exact (wellLaid_parts a b rest' h).1

theorem wellLaid_bound (l : List DayItem) (hw : wellLaid l = true) (hl : lastIsDayEnd l) :
    ∀ it ∈ l, it.s ≤ MINUTES_PER_DAY ∧ it.e ≤ MINUTES_PER_DAY := by
  induction l with
  | nil => exact fun it h => absurd h (List.not_mem_nil it)
  | cons a rest ih =>
    cases rest with
    | nil =>
      intro it hit
      rcases List.mem_cons.mp hit with rfl | h
      · obtain ⟨h1, h2⟩ := hl
        have := wellLaid_head it [] hw
        exact ⟨by omega, by omega⟩
      · cases h
    | cons b rest' =>
      obtain ⟨h1, h2, h3⟩ := wellLaid_parts a b rest' hw
      have hl' : lastIsDayEnd (b :: rest') := hl
      intro it hit
      rcases List.mem_cons.mp hit with rfl | h
      · have hb := (ih h3 hl' b (List.mem_cons_self b rest')).1
        exact ⟨by omega, by omega⟩
      · exact ih h3 hl' it h

theorem wellLaid_head_le (b : DayItem) (rest : List DayItem)
    (h : wellLaid (b :: rest) = true) : ∀ it ∈ rest, b.e ≤ it.s := by
  induction rest generalizing b with
  | nil => exact fun it hit => absurd hit (List.not_mem_nil it)
  | cons c rest' ih =>
    obtain ⟨h1, h2, h3⟩ := wellLaid_parts b c rest' h
    intro it hit
    rcases List.mem_cons.mp hit with rfl | hit'
    · exact h2
    · have hc := wellLaid_head c rest' h3
      have := ih c h3 it hit'
      omega

theorem lastIsDayEnd_append (l : List DayItem) :
    lastIsDayEnd (l ++ [⟨MINUTES_PER_DAY, MINUTES_PER_DAY, "__end"⟩]) := by
  induction l with
  | nil => exact ⟨rfl, rfl⟩
  | cons y ys ih =>
    cases ys with
    | nil => exact ⟨rfl, rfl⟩
    | cons z zs => exact ih

theorem lastIsDayEnd_withSentinels (l : List DayItem) :
    lastIsDayEnd (withSentinels l) := by
  cases l with
  | nil => exact ⟨rfl, rfl⟩
  | cons y ys => exact lastIsDayEnd_append (y :: ys)

/-- Correctness of the `findNextGap` scan loop over a well-laid suffix: it
returns -1 exactly when no feasible placement exists, and otherwise the
least feasible placement. -/
theorem findNextGapAux_spec (fromM duration : Int) (hdur : 0 < duration) :
    ∀ (rest : List DayItem) (a : DayItem), wellLaid (a :: rest) = true →
      lastIsDayEnd (a :: rest) →
      (findNextGapAux fromM duration (a :: rest) = -1 ∧
        ∀ p, ¬ GapFrom fromM duration a.e rest p) ∨
      (GapFrom fromM duration a.e rest (findNextGapAux fromM duration (a :: rest)) ∧
        ∀ p, GapFrom fromM duration a.e rest p →
          findNextGapAux fromM duration (a :: rest) ≤ p) := by
  intro rest
  induction rest with
  | nil =>
    intro a hw hl
    left
    refine ⟨rfl, ?_⟩
    rintro p ⟨h1, h2, h3, -⟩
    obtain ⟨hs, he⟩ := hl
    rw [he] at h2
    unfold MINUTES_PER_DAY at h2 h3
    omega
  | cons b rest' ih =>
    intro a hw hl
    obtain ⟨ha1, hab, hwb⟩ := wellLaid_parts a b rest' hw
    have hl' : lastIsDayEnd (b :: rest') := hl
    have hbs : b.s ≤ b.e := wellLaid_head b rest' hwb
    have hbound := wellLaid_bound (b :: rest') hwb hl'
    by_cases hfit : max a.e fromM + duration ≤ b.s
    · right
      have hval : findNextGapAux fromM duration (a :: b :: rest') = max a.e fromM := by
        simp only [findNextGapAux, if_pos hfit]
      rw [hval]
      constructor
      · refine ⟨le_max_right _ _, le_max_left _ _, ?_, ?_⟩
        · have := (hbound b (List.mem_cons_self b rest')).1
          omega
        · intro it hit
          rcases List.mem_cons.mp hit with rfl | hit'
          · exact Or.inl hfit
          · have := wellLaid_head_le b rest' hwb it hit'
            exact Or.inl (by omega)
      · rintro p ⟨h1, h2, -, -⟩
        exact max_le h2 h1
    · have hval : findNextGapAux fromM duration (a :: b :: rest') =
          findNextGapAux fromM duration (b :: rest') := by
        simp only [findNextGapAux, if_neg hfit]
      have hiff : ∀ p, GapFrom fromM duration a.e (b :: rest') p ↔
          GapFrom fromM duration b.e rest' p := by
        intro p
        constructor
        · rintro ⟨h1, h2, h3, h4⟩
          have hbp : b.e ≤ p := by
            rcases h4 b (List.mem_cons_self b rest') with hcl | hcl
            · exfalso
              have hmax : max a.e fromM ≤ p := max_le h2 h1
              omega
            · exact hcl
          exact ⟨h1, hbp, h3, fun it hit => h4 it (List.mem_cons_of_mem b hit)⟩
        · rintro ⟨h1, h2, h3, h4⟩
          refine ⟨h1, by omega, h3, ?_⟩
          intro it hit
          rcases List.mem_cons.mp hit with rfl | hit'
          · exact Or.inr (by omega)
          · exact h4 it hit'
      rcases ih b hwb hl' with ⟨hneg, hnone⟩ | ⟨hfeas, hmin⟩
      · left
        rw [hval, hneg]
        exact ⟨rfl, fun p hp => hnone p ((hiff p).mp hp)⟩
      · right
        rw [hval]
        exact ⟨(hiff _).mpr hfeas, fun p hp => hmin p ((hiff p).mp hp)⟩

theorem gapFrom_iff_fits (dayBlocks : List DayItem) (fromM duration : Int)
    (hdur : 0 < duration) (hs : ∀ it ∈ dayBlocks, it.s < it.e) (p : Int) :
    GapFrom fromM duration 0
        (dayBlocks ++ [⟨MINUTES_PER_DAY, MINUTES_PER_DAY, "__end"⟩]) p ↔
      Fits dayBlocks fromM duration p := by
  constructor
  · rintro ⟨h1, h2, h3, h4⟩
    refine ⟨h1, h2, h3, ?_⟩
    intro it hit
    have hcl := h4 it (List.mem_append_left _ hit)
    unfold overlaps
    simp only [decide_eq_false_iff_not, not_lt]
    rcases hcl with hcl | hcl
    · calc min (p + duration) it.e ≤ p + duration := min_le_left _ _
        _ ≤ it.s := hcl
        _ ≤ max p it.s := le_max_right _ _
    · calc min (p + duration) it.e ≤ it.e := min_le_right _ _
        _ ≤ p := hcl
        _ ≤ max p it.s := le_max_left _ _
  · rintro ⟨h1, h2, h3, h4⟩
    refine ⟨h1, h2, h3, ?_⟩
    intro it hit
    rcases List.mem_append.mp hit with hit' | hsent
    · have hov := h4 it hit'
      have hlt := hs it hit'
      unfold overlaps at hov
      simp only [decide_eq_false_iff_not, not_lt] at hov
      by_cases hps : p + duration ≤ it.s
      · exact Or.inl hps
      · by_cases hpe : it.e ≤ p
        · exact Or.inr hpe
        · exfalso
          have hmax : max p it.s < min (p + duration) it.e := by
            rcases max_cases p it.s with ⟨hm, hm'⟩ | ⟨hm, hm'⟩ <;>
              rcases min_cases (p + duration) it.e with ⟨hn, hn'⟩ | ⟨hn, hn'⟩ <;>
              omega
          omega
    · rcases List.mem_cons.mp hsent with rfl | h
      · exact Or.inl h3
      · cases h

/-- `findNextGap` over a sorted, pairwise non-overlapping day with
non-empty blocks: -1 exactly when no placement of the block fits at or
after `fromM`, and otherwise the earliest fitting placement. -/
theorem findNextGap_spec (dayBlocks : List DayItem) (fromM duration : Int)
    (hdur : 0 < duration)
    (hw : wellLaid (withSentinels dayBlocks) = true)
    (hs : ∀ it ∈ dayBlocks, it.s < it.e) :
    (findNextGap dayBlocks fromM duration = -1 ∧
      ∀ p, ¬ Fits dayBlocks fromM duration p) ∨
    (Fits dayBlocks fromM duration (findNextGap dayBlocks fromM duration) ∧
      ∀ p, Fits dayBlocks fromM duration p → findNextGap dayBlocks fromM duration ≤ p) := by
  have hl := lastIsDayEnd_withSentinels dayBlocks
  unfold withSentinels at hw hl
  unfold findNextGap withSentinels
  have h := findNextGapAux_spec fromM duration hdur
    (dayBlocks ++ [⟨MINUTES_PER_DAY, MINUTES_PER_DAY, "__end"⟩])
    ⟨0, 0, "__start"⟩ hw hl
  rcases h with ⟨hneg, hnone⟩ | ⟨hfeas, hmin⟩
  · left
    exact ⟨hneg,
      fun p hp => hnone p ((gapFrom_iff_fits dayBlocks fromM duration hdur hs p).mpr hp)⟩
  · right
    exact ⟨(gapFrom_iff_fits dayBlocks fromM duration hdur hs _).mp hfeas,
      fun p hp => hmin p ((gapFrom_iff_fits dayBlocks fromM duration hdur hs p).mpr hp)⟩

/-- C1 (amended): under `push`, a conflicting move proposal is resolved by
scanning the day's blocks in start-time order between the virtual occupied
sentinels at minutes 0 and 1440 — *including* the moved block's own current
occurrence when it lies on the target day — and the block is placed at the
earliest gap of at least its duration starting at or after the proposed
start; if no such gap exists before day-end the outcome is `noGap`
(a notification, block unchanged). -/
theorem pushResolve_amended (dayBlocks : List DayItem) (selfId : String) (sM duration : Int)
    (hw : wellLaid (withSentinels dayBlocks) = true)
    (hs : ∀ it ∈ dayBlocks, it.s < it.e)
    (hdur : 0 < duration)
    (hconf : computeOverlap dayBlocks selfId sM (sM + duration) = true) :
    (∃ g, pushResolve dayBlocks selfId sM duration = .placed g (g + duration) ∧
      Fits dayBlocks sM duration g ∧
      ∀ p, Fits dayBlocks sM duration p → g ≤ p) ∨
    (pushResolve dayBlocks selfId sM duration = .noGap ∧
      ∀ p, ¬ Fits dayBlocks sM duration p) := by
  rcases findNextGap_spec dayBlocks sM duration hdur hw hs with ⟨hneg, hnone⟩ | ⟨hfeas, hmin⟩
  · right
    refine ⟨?_, hnone⟩
    unfold pushResolve
    rw [if_pos hconf, hneg, if_neg (by decide)]
  · left
    refine ⟨findNextGap dayBlocks sM duration, ?_, hfeas, hmin⟩
    unfold pushResolve
    rw [if_pos hconf, if_pos hfeas.2.1]

theorem pushResolve_amended_witness :
    pushResolve [⟨540, 600, "s1"⟩, ⟨660, 720, "s2"⟩] "me" 570 60 = .placed 600 660 ∧
    ((∃ g, pushResolve [⟨540, 600, "s1"⟩, ⟨660, 720, "s2"⟩] "me" 570 60 =
        .placed g (g + 60) ∧
      Fits [⟨540, 600, "s1"⟩, ⟨660, 720, "s2"⟩] 570 60 g ∧
      ∀ p, Fits [⟨540, 600, "s1"⟩, ⟨660, 720, "s2"⟩] 570 60 p → g ≤ p) ∨
     (pushResolve [⟨540, 600, "s1"⟩, ⟨660, 720, "s2"⟩] "me" 570 60 = .noGap ∧
      ∀ p, ¬ Fits [⟨540, 600, "s1"⟩, ⟨660, 720, "s2"⟩] 570 60 p)) :=
  ⟨by decide,
   pushResolve_amended [⟨540, 600, "s1"⟩, ⟨660, 720, "s2"⟩] "me" 570 60
     (by decide) (by decide) (by decide) (by decide)⟩

/-! ## Claim C7: clip policy on resize -/

theorem clipFold_le_init (sM eM : Int) (l : List DayItem) (a : Int) :
    l.foldl (fun limit it =>
      if overlaps sM eM it.s it.e && decide (sM < it.s) then min limit it.s else limit) a ≤ a := by
  induction l generalizing a with
  | nil => exact le_refl a
  | cons it rest ih =>
    refine le_trans (ih _) ?_
    show (if overlaps sM eM it.s it.e && decide (sM < it.s) then min a it.s else a) ≤ a
    split
    · exact min_le_left _ _
    · exact le_refl a

theorem clipFold_le_mem (sM eM : Int) (l : List DayItem) (it : DayItem)
    (hP : (overlaps sM eM it.s it.e && decide (sM < it.s)) = true) :
    ∀ (a : Int), it ∈ l →
      l.foldl (fun limit it =>
        if overlaps sM eM it.s it.e && decide (sM < it.s) then min limit it.s else limit) a ≤
        it.s := by
  induction l with
  | nil =>
    intro a hmem
    cases hmem
  | cons y rest ih =>
    intro a hmem
    rcases List.mem_cons.mp hmem with rfl | hmem'
    · refine le_trans (clipFold_le_init sM eM rest _) ?_
      show (if overlaps sM eM it.s it.e && decide (sM < it.s) then min a it.s else a) ≤ it.s
      rw [if_pos hP]
      exact min_le_right _ _
    · exact ih _ hmem'

theorem clipFold_lower (sM eM c : Int) (l : List DayItem) :
    ∀ (a : Int), c ≤ a →
      (∀ it ∈ l, (overlaps sM eM it.s it.e && decide (sM < it.s)) = true → c ≤ it.s) →
      c ≤ l.foldl (fun limit it =>
        if overlaps sM eM it.s it.e && decide (sM < it.s) then min limit it.s else limit) a := by
  induction l with
  | nil =>
    intro a hc _
    exact hc
  | cons y rest ih =>
    intro a hc h
    refine ih _ ?_ (fun it hit hP => h it (List.mem_cons_of_mem y hit) hP)
    show c ≤ (if overlaps sM eM y.s y.e && decide (sM < y.s) then min a y.s else a)
    split
    · exact le_min hc (h y (List.mem_cons_self y rest) (by assumption))
    · exact hc

/-- C7: under `clip`, a resize proposal `[sM, eM)` that conflicts with a
sibling commits the pair `(sM, max m (sM + SNAP_MIN))` where `m` is the
least start among overlapping siblings that start strictly after the
block's unchanged start `sM`; the start is never modified. -/
theorem clipResize_spec (dayBlocks : List DayItem) (selfId : String) (sM eM m : Int)
    (hconf : computeOverlap dayBlocks selfId sM eM = true)
    (hmem : ∃ it ∈ dayBlocks, it.id ≠ selfId ∧
      overlaps sM eM it.s it.e = true ∧ sM < it.s ∧ it.s = m)
    (hleast : ∀ it ∈ dayBlocks, it.id ≠ selfId →
      overlaps sM eM it.s it.e = true → sM < it.s → m ≤ it.s) :
    clipResize dayBlocks selfId sM eM = (sM, max m (sM + SNAP_MIN)) := by
  obtain ⟨w, hwmem, hwid, hwov, hws, hwm⟩ := hmem
  have hm_lt_eM : m < eM := by
    have hov := hwov
    unfold overlaps at hov
    simp only [decide_eq_true_eq] at hov
    have h1 : w.s ≤ max sM w.s := le_max_right _ _
    have h2 : min eM w.e ≤ eM := min_le_left _ _
    omega
  have hwmem' : w ∈ dayBlocks.filter (fun x => x.id ≠ selfId) :=
    List.mem_filter.mpr ⟨hwmem, by simp [hwid]⟩
  have hr_le : clipEndToFirstConflict dayBlocks selfId sM eM ≤ m := by
    rw [← hwm]
    exact clipFold_le_mem sM eM _ w (by rw [hwov]; simpa using hws) eM hwmem'
  have hr_ge : m ≤ clipEndToFirstConflict dayBlocks selfId sM eM := by
    refine clipFold_lower sM eM m _ eM (le_of_lt hm_lt_eM) ?_
    intro it hit hP
    have hit' := List.mem_filter.mp hit
    simp only [Bool.and_eq_true, decide_eq_true_eq] at hP
    exact hleast it hit'.1 (by simpa using hit'.2) hP.1 hP.2
  have hrm : clipEndToFirstConflict dayBlocks selfId sM eM = m := le_antisymm hr_le hr_ge
  unfold clipResize
  rw [if_pos hconf, hrm]

theorem clipResize_spec_witness :
    clipResize [⟨600, 660, "sib"⟩] "b" 540 660 = (540, 600) :=
  clipResize_spec [⟨600, 660, "sib"⟩] "b" 540 660 600 (by decide)
    ⟨⟨600, 660, "sib"⟩, by decide, by decide, by decide, by decide, by decide⟩
    (by decide)

/-! ## Claim C3: single-occurrence deletion from a series -/

theorem find?_decomp (p : Block → Bool) (l : List Block) (b : Block)
    (h : l.find? p = some b) :
    ∃ l1 l2, l = l1 ++ b :: l2 ∧ ∀ y ∈ l1, p y = false := by
  induction l with
  | nil => simp [List.find?] at h
  | cons y ys ih =>
    by_cases hy : p y = true
    · have hyb : y = b := by
        simp only [List.find?, hy] at h
        exact Option.some.inj h
      subst hyb
      exact ⟨[], ys, rfl, by simp⟩
    · simp only [List.find?, hy] at h
      obtain ⟨l1, l2, hdec, hl1⟩ := ih h
      refine ⟨y :: l1, l2, by rw [List.cons_append, hdec], ?_⟩
      intro z hz
      rcases List.mem_cons.mp hz with rfl | hz'
      · exact Bool.eq_false_iff.mpr hy
      · exact hl1 z hz'

theorem removeFirst_append (bid : String) (l1 l2 : List Block) (blk : Block)
    (h1 : ∀ y ∈ l1, (y.block_id == bid) = false)
    (hb : (blk.block_id == bid) = true) :
    removeFirst bid (l1 ++ blk :: l2) = l1 ++ l2 := by
  induction l1 with
  | nil => simp [removeFirst, hb]
  | cons y ys ih =>
    have hy := h1 y (List.mem_cons_self y ys)
    simp only [List.cons_append, removeFirst, hy, Bool.false_eq_true, if_false]
    exact congrArg (fun t => y :: t) (ih (fun z hz => h1 z (List.mem_cons_of_mem y hz)))

/-- C3: deleting a series member (non-empty `recurrence.id`, at least one
other member left) with scope `single` removes exactly that block — the
collection splits as `l1 ++ blk :: l2` with no earlier id match, and the
result is `l1 ++ l2` modulo the recurrence update; assuming the series
invariant that all members carry the same `exceptions` set `E`, every
remaining member receives a rule whose `exceptions` is exactly `E` plus the
deleted occurrence's ISO start date (not duplicated if already present),
and blocks outside the series are untouched. -/
theorem deleteBlock_single_series_spec
    (blocks : List Block) (bid : String) (blk : Block) (r : BlockRecurrence) (E : List Int)
    (hfind : blocks.find? (fun x => x.block_id == bid) = some blk)
    (hrec : blk.recurrence = some r) (hid : r.id ≠ "")
    (hshared : ∀ x ∈ blocks, recIdOf x = some r.id →
      ∃ xr, x.recurrence = some xr ∧ xr.exceptions.getD [] = E)
    (hothers : ∃ y ∈ removeFirst bid blocks, recIdOf y = some r.id) :
    ∃ l1 l2 rec1,
      blocks = l1 ++ blk :: l2 ∧
      (∀ y ∈ l1, (y.block_id == bid) = false) ∧
      rec1.id = r.id ∧
      rec1.exceptions =
        some (if blk.start.fdiv 1440 ∈ E then E else E ++ [blk.start.fdiv 1440]) ∧
      blk.start.fdiv 1440 ∈ rec1.exceptions.getD [] ∧
      deleteBlock blocks bid .single =
        some ((l1 ++ l2).map (fun x =>
          if recIdOf x == some r.id
          then { x with recurrence := some rec1, rev := x.rev + 1 }
          else x)) := by
  obtain ⟨l1, l2, hdec, hl1⟩ := find?_decomp _ blocks blk hfind
  have hbid : (blk.block_id == bid) = true := by
    have := List.find?_some hfind
    simpa using this
  have hrest : removeFirst bid blocks = l1 ++ l2 := by
    rw [hdec]
    exact removeFirst_append bid l1 l2 blk hl1 hbid
  cases hf : (removeFirst bid blocks).filter (fun x => recIdOf x == some r.id) with
  | nil =>
    exfalso
    obtain ⟨y, hy, hyid⟩ := hothers
    have hmem : y ∈ (removeFirst bid blocks).filter (fun x => recIdOf x == some r.id) :=
      List.mem_filter.mpr ⟨hy, by simp [hyid]⟩
    rw [hf] at hmem
    cases hmem
  | cons o0 os =>
    have ho0 : o0 ∈ removeFirst bid blocks ∧ (recIdOf o0 == some r.id) = true := by
      have hmem : o0 ∈ (removeFirst bid blocks).filter (fun x => recIdOf x == some r.id) := by
        rw [hf]
        exact List.mem_cons_self _ _
      exact List.mem_filter.mp hmem
    have ho0id : recIdOf o0 = some r.id := by simpa using ho0.2
    have ho0mem : o0 ∈ blocks := by
      rw [hdec]
      rw [hrest] at ho0
      rcases List.mem_append.mp ho0.1 with hmem | hmem
      · exact List.mem_append.mpr (Or.inl hmem)
      · exact List.mem_append.mpr (Or.inr (List.mem_cons_of_mem _ hmem))
    obtain ⟨r0, hr0, hE⟩ := hshared o0 ho0mem ho0id
    have hr0id : r0.id = r.id := by
      unfold recIdOf at ho0id
      rw [hr0] at ho0id
      simpa using ho0id
    refine ⟨l1, l2, { r0 with exceptions := some (if blk.start.fdiv 1440 ∈ E then E else E ++ [blk.start.fdiv 1440]) }, hdec, hl1, hr0id, rfl, ?_, ?_⟩
    · simp only [Option.getD_some]
      split
      · assumption
      · simp
    · simp only [deleteBlock, hfind, hrec, ne_eq, hid, not_false_eq_true, if_true, hf,
        hr0, hE, Option.getD_some]
      rw [hrest]

theorem deleteBlock_single_series_spec_witness :
    ∃ l1 l2 rec1,
      seriesDemo =
        l1 ++ (⟨"a", none, none, none, 100, 160, .planned, 1, some seriesRecDemo⟩ : Block) :: l2 ∧
      (∀ y ∈ l1, (y.block_id == "a") = false) ∧
      rec1.id = "s" ∧
      rec1.exceptions =
        some (if (100 : Int).fdiv 1440 ∈ ([] : List Int)
          then ([] : List Int) else [] ++ [(100 : Int).fdiv 1440]) ∧
      (100 : Int).fdiv 1440 ∈ rec1.exceptions.getD [] ∧
      deleteBlock seriesDemo "a" .single =
        some ((l1 ++ l2).map (fun x =>
          if recIdOf x == some "s"
          then { x with recurrence := some rec1, rev := x.rev + 1 }
          else x)) :=
  deleteBlock_single_series_spec seriesDemo "a"
    ⟨"a", none, none, none, 100, 160, .planned, 1, some seriesRecDemo⟩ seriesRecDemo []
    (by decide) (by decide) (by decide)
    (fun x hx _ => by
      simp only [seriesDemo, List.mem_cons, List.not_mem_nil, or_false] at hx
      rcases hx with rfl | rfl | rfl <;> exact ⟨seriesRecDemo, rfl, rfl⟩)
    ⟨⟨"b", none, none, none, 1540, 1600, .planned, 1, some seriesRecDemo⟩,
      by decide, by decide⟩

/-! ## Claim C5: per-command results, error tags, no batch abort -/

/-- Commands whose payload references a block or task absent from the
collections (exactly the cases where the source throws `NOT_FOUND`). -/
def refMissing (st : ExecState) : CommandKind → Prop
  | .move_block bid _ => st.blocks.find? (fun x => x.block_id == bid) = none
  | .resize_block bid _ => st.blocks.find? (fun x => x.block_id == bid) = none
  | .complete_block bid => st.blocks.find? (fun x => x.block_id == bid) = none
  | .update_task tid _ => st.tasks.find? (fun x => x.task_id == tid) = none
  | .set_recurrence tid _ => st.tasks.find? (fun x => x.task_id == tid) = none
  | _ => False

theorem applyOne_forId (st : ExecState) (env : AICommandEnvelope) :
    (applyOne st env).2.forId = env.id := by
  rcases env with ⟨eid, a, t, cmd⟩
  cases cmd <;> simp only [applyOne] <;> (try split) <;> rfl

theorem refMissing_applyOne (st : ExecState) (env : AICommandEnvelope)
    (h : refMissing st env.command) :
    (applyOne st env).1 = st ∧ (applyOne st env).2.ok = false ∧
    ∃ pre post, (applyOne st env).2.error = some (pre ++ "NOT_FOUND:" ++ post) := by
  rcases env with ⟨eid, a, t, cmd⟩
  cases cmd with
  | move_block bid ns =>
    have hfind : st.blocks.find? (fun x => x.block_id == bid) = none := h
    exact ⟨by simp [applyOne, hfind], by simp [applyOne, hfind],
      "Error: ", " block", by simp only [applyOne, hfind]; decide⟩
  | resize_block bid ne =>
    have hfind : st.blocks.find? (fun x => x.block_id == bid) = none := h
    exact ⟨by simp [applyOne, hfind], by simp [applyOne, hfind],
      "Error: ", " block", by simp only [applyOne, hfind]; decide⟩
  | complete_block bid =>
    have hfind : st.blocks.find? (fun x => x.block_id == bid) = none := h
    exact ⟨by simp [applyOne, hfind], by simp [applyOne, hfind],
      "Error: ", " block", by simp only [applyOne, hfind]; decide⟩
  | update_task tid p =>
    have hfind : st.tasks.find? (fun x => x.task_id == tid) = none := h
    exact ⟨by simp [applyOne, hfind], by simp [applyOne, hfind],
      "Error: ", " task", by simp only [applyOne, hfind]; decide⟩
  | set_recurrence tid rr =>
    have hfind : st.tasks.find? (fun x => x.task_id == tid) = none := h
    exact ⟨by simp [applyOne, hfind], by simp [applyOne, hfind],
      "Error: ", " task", by simp only [applyOne, hfind]; decide⟩
  | create_task a1 a2 a3 a4 => exact h.elim
  | create_block a1 a2 a3 a4 a5 a6 => exact h.elim
  | unknown tag => exact h.elim

theorem unknown_applyOne (st : ExecState) (env : AICommandEnvelope) (tag : String)
    (h : env.command = .unknown tag) :
    applyOne st env = (st, ⟨env.id, false, some ("UNSUPPORTED: " ++ tag)⟩) := by
  rcases env with ⟨eid, a, t, cmd⟩
  simp only at h
  subst h
  rfl

/-- C5: the pipeline produces exactly one result per envelope, carrying the
envelope's id; a command referencing a missing block/task yields `ok:false`
with a `NOT_FOUND:`-tagged error and leaves the collections untouched; an
unknown command type yields `ok:false` with an `UNSUPPORTED:`-tagged error;
and in both failure cases the remaining batch is applied exactly as it
would be from the unchanged state — a failure never aborts the batch. -/
theorem pipeline_per_command_results :
    (∀ (st : ExecState) (envs : List AICommandEnvelope),
      ((applyEnvs st envs).2).map (fun r => r.forId) = envs.map (fun e => e.id) ∧
      ((applyEnvs st envs).2).length = envs.length) ∧
    (∀ (st : ExecState) (env : AICommandEnvelope), refMissing st env.command →
      (applyOne st env).1 = st ∧ (applyOne st env).2.ok = false ∧
      ∃ pre post, (applyOne st env).2.error = some (pre ++ "NOT_FOUND:" ++ post)) ∧
    (∀ (st : ExecState) (env : AICommandEnvelope) (tag : String),
      env.command = .unknown tag →
      applyOne st env = (st, ⟨env.id, false, some ("UNSUPPORTED: " ++ tag)⟩) ∧
      ∃ post, ("UNSUPPORTED: " ++ tag : String) = "UNSUPPORTED:" ++ post) ∧
    (∀ (st : ExecState) (env : AICommandEnvelope) (rest : List AICommandEnvelope),
      refMissing st env.command ∨ (∃ tag, env.command = .unknown tag) →
      applyEnvs st (env :: rest) =
        ((applyEnvs st rest).1, (applyOne st env).2 :: (applyEnvs st rest).2)) := by
  refine ⟨?_, refMissing_applyOne, ?_, ?_⟩
  · intro st envs
    induction envs generalizing st with
    | nil => exact ⟨rfl, rfl⟩
    | cons e rest ih =>
      simp only [applyEnvs, List.map, List.length]
      exact ⟨by rw [applyOne_forId, (ih _).1], by rw [(ih _).2]⟩
  · intro st env tag h
    refine ⟨unknown_applyOne st env tag h, " " ++ tag, ?_⟩
    rw [← String.append_assoc]
    have e : ("UNSUPPORTED:" ++ " " : String) = "UNSUPPORTED: " := by decide
    rw [e]
  · intro st env rest hfail
    have hst : (applyOne st env).1 = st := by
      rcases hfail with hmiss | ⟨tag, htag⟩
      · exact (refMissing_applyOne st env hmiss).1
      · rw [unknown_applyOne st env tag htag]
    simp only [applyEnvs]
    rw [hst]

theorem pipeline_per_command_results_witness :
    ((applyEnvs ⟨[], [], 0, 0⟩
        [⟨"c1", "ai", 0, .move_block "nope" 0⟩, ⟨"c2", "ai", 0, .unknown "zap"⟩]).2).map
      (fun r => r.forId) =
      [⟨"c1", "ai", 0, CommandKind.move_block "nope" 0⟩,
       ⟨"c2", "ai", 0, .unknown "zap"⟩].map (fun (e : AICommandEnvelope) => e.id) ∧
    (applyOne ⟨[], [], 0, 0⟩ ⟨"c1", "ai", 0, .move_block "nope" 0⟩).1 = ⟨[], [], 0, 0⟩ ∧
    applyEnvs ⟨[], [], 0, 0⟩
        [⟨"c2", "ai", 0, .unknown "zap"⟩, ⟨"c1", "ai", 0, .move_block "nope" 0⟩] =
      ((applyEnvs ⟨[], [], 0, 0⟩ [⟨"c1", "ai", 0, .move_block "nope" 0⟩]).1,
        (applyOne ⟨[], [], 0, 0⟩ ⟨"c2", "ai", 0, .unknown "zap"⟩).2 ::
          (applyEnvs ⟨[], [], 0, 0⟩ [⟨"c1", "ai", 0, .move_block "nope" 0⟩]).2) :=
  ⟨(pipeline_per_command_results.1 ⟨[], [], 0, 0⟩
      [⟨"c1", "ai", 0, .move_block "nope" 0⟩, ⟨"c2", "ai", 0, .unknown "zap"⟩]).1,
   (pipeline_per_command_results.2.1 ⟨[], [], 0, 0⟩
      ⟨"c1", "ai", 0, .move_block "nope" 0⟩ rfl).1,
   pipeline_per_command_results.2.2.2 ⟨[], [], 0, 0⟩
      ⟨"c2", "ai", 0, .unknown "zap"⟩ [⟨"c1", "ai", 0, .move_block "nope" 0⟩]
      (Or.inr ⟨"zap", rfl⟩)⟩

/-! ## Claim C4: batch signature and idempotent application -/

theorem sigOf_ne_empty (raw : String) : sigOf raw ≠ "" := by
  intro h
  have hlen := congrArg String.length h
  have h1 : (":" : String).length = 1 := by decide
  have h0 : ("" : String).length = 0 := rfl
  simp only [sigOf, String.length_append, h1, h0] at hlen
  omega

/-- C4: for non-empty inbox content the signature is the content's length
joined to the rolling hash (`sigOf`); a batch whose signature equals the
last-applied signature is skipped entirely — no command applied, no state
change, empty result list — so applying the same unchanged batch right
after a first application has no effect. -/
theorem batch_signature_idempotent (raw : String) (envs : List AICommandEnvelope)
    (st : AppState) (hraw : raw ≠ "") :
    (∀ st', sigOf raw = st'.lastSig → onApplyCommands raw envs st' = (st', [])) ∧
    (∀ st1 out1, onApplyCommands raw envs st = (st1, out1) →
      onApplyCommands raw envs st1 = (st1, [])) := by
  have hsig : (if raw = "" then "" else sigOf raw) = sigOf raw := if_neg hraw
  constructor
  · intro st' hlast
    simp only [onApplyCommands, hsig]
    rw [if_pos ⟨sigOf_ne_empty raw, hlast⟩]
  · intro st1 out1 hrun
    have hlast : sigOf raw = st1.lastSig := by
      simp only [onApplyCommands, hsig] at hrun
      by_cases hskip : sigOf raw ≠ "" ∧ sigOf raw = st.lastSig
      · rw [if_pos hskip] at hrun
        cases hrun
        exact hskip.2
      · rw [if_neg hskip] at hrun
        cases hrun
        show sigOf raw = (if sigOf raw = "" then st.lastSig else sigOf raw)
        rw [if_neg (sigOf_ne_empty raw)]
    simp only [onApplyCommands, hsig]
    rw [if_pos ⟨sigOf_ne_empty raw, hlast⟩]

theorem batch_signature_idempotent_witness :
    onApplyCommands "x" []
      { exec := { tasks := [], blocks := [], fresh := 0, now := 0 }, lastSig := "1:120" } =
      ({ exec := { tasks := [], blocks := [], fresh := 0, now := 0 }, lastSig := "1:120" },
        []) :=
  (batch_signature_idempotent "x" []
      { exec := { tasks := [], blocks := [], fresh := 0, now := 0 }, lastSig := "" }
      (by decide)).2
    { exec := { tasks := [], blocks := [], fresh := 0, now := 0 }, lastSig := "1:120" } []
    (by decide)

theorem move_preserves_duration_witness :
    (Block.mk "a" none none none 200 260 .planned 2 none).«end» -
      (Block.mk "a" none none none 200 260 .planned 2 none).start =
    (Block.mk "a" none none none 0 60 .planned 1 none).«end» -
      (Block.mk "a" none none none 0 60 .planned 1 none).start :=
  move_preserves_duration.1 [⟨"a", none, none, none, 0, 60, .planned, 1, none⟩] "a" 200
    [⟨"a", none, none, none, 200, 260, .planned, 2, none⟩] (by decide) 0 _ _ rfl rfl

end WeeklyCal
